import Mathlib

/-!
Shallow embedding of the watermark compositing engine and encoding dispatcher of the
`imagekit` repository (src/processor.rs, src/cli.rs), together with proofs settling the
frozen claims about its specification.

Machine integers (`u32`, `u8`) are modelled as `Nat`; every saturating subtraction of the
source (`saturating_sub`) is `Nat` truncated subtraction, which coincides with it for all
`u32` values.  `f32` quantities (carets, kerning, coverage, shrink factors) are modelled as
exact rationals `ℚ`; rounding modes of the source (`floor`, `round`, `as u8` casts) are made
explicit.  External library values (fonts of `rusttype`, the pixel blend of the `image`
crate) enter as explicit data or, where the claim depends on them, as definitions modelled
from the spec and marked as such.
-/

/-- An RGBA pixel, 8 bits per channel, modelled as four naturals (`image::Rgba<u8>`). -/
structure Rgba where
  r : Nat
  g : Nat
  b : Nat
  a : Nat
deriving DecidableEq, Repr

/-- A pixel bounding box with inclusive integer corners (`rusttype::Rect<i32>`). -/
structure BBox where
  minX : Int
  minY : Int
  maxX : Int
  maxY : Int
deriving DecidableEq, Repr

/-- A loaded font (`rusttype::Font`), modelled by the capabilities the engine uses:
glyph lookup by character (glyph id `0` is the missing-glyph sentinel), horizontal
advance and pair kerning at a scale, the ascent, and the rasteriser outputs of a
positioned glyph: its pixel bounding box (absent for whitespace) and its list of
`(x, y, coverage)` draw events relative to that box. -/
structure Font where
  glyphId : Char → Nat
  advance : ℚ → Nat → ℚ
  kern : ℚ → Nat → Nat → ℚ
  ascent : ℚ → ℚ
  pixelBBox : ℚ → ℚ → ℚ → Nat → Option BBox
  raster : ℚ → ℚ → ℚ → Nat → List (Nat × Nat × ℚ)

/-- A positioned glyph (`rusttype::PositionedGlyph`): the font that produced it, its glyph
id, the uniform scale, and its 2D origin. -/
structure PositionedGlyph where
  font : Font
  id : Nat
  scale : ℚ
  x : ℚ
  y : ℚ

/-- The pixel bounding box of a positioned glyph (`PositionedGlyph::pixel_bounding_box`). -/
def pixelBBoxOf (g : PositionedGlyph) : Option BBox :=
  g.font.pixelBBox g.scale g.x g.y g.id

/-- The rasteriser draw events of a positioned glyph (`PositionedGlyph::draw`). -/
def rasterOf (g : PositionedGlyph) : List (Nat × Nat × ℚ) :=
  g.font.raster g.scale g.x g.y g.id

/-- A destination image (`image::DynamicImage`): dimensions and a pixel function. -/
structure Image where
  width : Nat
  height : Nat
  pix : Nat → Nat → Rgba

/-- Writing one pixel of the image (`GenericImage::put_pixel`). -/
def putPixel (img : Image) (x y : Nat) (c : Rgba) : Image :=
  { img with pix := fun p q => if p = x ∧ q = y then c else img.pix p q }

/-- The nine watermark anchor positions (`cli::WatermarkPosition`). -/
inductive WatermarkPosition where
  | Nw | North | Ne | West | Center | East | Sw | South | Se
deriving DecidableEq, Repr

/-- Glyph resolution with fallback (the `find_map` of `layout_text`, processor.rs lines
87–93): scan the font list in order, take the first font whose glyph for the character is
not the missing-glyph sentinel (id 0); if all report missing, use the primary font's
replacement glyph U+FFFD. -/
def resolveGlyph (fonts : List Font) (primary : Font) (ch : Char) : Font × Nat :=
  match fonts.findSome? (fun f => if f.glyphId ch ≠ 0 then some (f, f.glyphId ch) else none) with
  | some r => r
  | none => (primary, primary.glyphId (Char.ofNat 65533))

/-- The kerning step of the caret loop (processor.rs lines 96–98): when a previous glyph
exists, add the pair kerning between it and the current glyph, looked up in the given font
at the given scale. -/
def caretAfterKern (caret : ℚ) (lastId : Option Nat) (f : Font) (scale : ℚ) (gid : Nat) : ℚ :=
  match lastId with
  | some prevId => caret + f.kern scale prevId gid
  | none => caret

/-- The caret loop of `layout_text` (processor.rs lines 86–105): for each character resolve
a glyph through the fallback set, add the pair kerning looked up in the font of the current
glyph when a previous glyph exists, place the glyph at the caret on the primary baseline,
then advance the caret by the glyph's horizontal advance. -/
def layoutChars (fonts : List Font) (primary : Font) (scale asc : ℚ) :
    List Char → ℚ → Option Nat → List PositionedGlyph
  | [], _, _ => []
  | ch :: rest, caret, lastId =>
    let fg := resolveGlyph fonts primary ch
    let caretK := caretAfterKern caret lastId fg.1 scale fg.2
    let g : PositionedGlyph := ⟨fg.1, fg.2, scale, caretK, asc⟩
    g :: layoutChars fonts primary scale asc rest (caretK + fg.1.advance scale fg.2) (some fg.2)

/-- The result of `layout_text`: positioned glyphs, pixel width and height of the union
bounding box, and the leftmost ink column (the horizontal offset correction). -/
structure LayoutOut where
  glyphs : List PositionedGlyph
  width : Nat
  height : Nat
  minX : Int

/-- `layout_text` (processor.rs lines 70–120): empty font set yields the empty layout;
otherwise run the caret loop from caret 0 with the primary font's ascent as baseline, then
fold the pixel bounding boxes of the glyphs that have one into a union box, starting from
the `i32` sentinel extremes exactly as the source does. -/
def layout_text (text : List Char) (scale : ℚ) (fonts : List Font) : LayoutOut :=
  match fonts with
  | [] => ⟨[], 0, 0, 0⟩
  | primary :: _ =>
    let glyphs := layoutChars fonts primary scale (primary.ascent scale) text 0 none
    let acc := glyphs.foldl
      (fun s g =>
        match pixelBBoxOf g with
        | some bb => (min s.1 bb.minX, max s.2.1 bb.maxX, min s.2.2.1 bb.minY, max s.2.2.2 bb.maxY)
        | none => s)
      ((2147483647 : Int), (-2147483648 : Int), (2147483647 : Int), (-2147483648 : Int))
    let textWidth := if acc.1 ≤ acc.2.1 then (acc.2.1 - acc.1).toNat else 0
    let textHeight := if acc.2.2.1 ≤ acc.2.2.2 then (acc.2.2.2 - acc.2.2.1).toNat else 0
    let finalMinX := if acc.1 = 2147483647 then 0 else acc.1
    ⟨glyphs, textWidth, textHeight, finalMinX⟩

/-- The auto-fit shrink step of `add_watermark` (processor.rs lines 145–151): if the
measured text exceeds the drawable area on either axis, compute per-axis shrink factors
drawable/measured (a zero measured dimension counts as factor 1), take their minimum,
multiply the requested font size by it, floor, and clamp to a minimum of 1; otherwise keep
the requested font size. -/
def autoFitScale (font_size : Nat) (dw dh tw th : Nat) : ℚ :=
  if tw > dw ∨ th > dh then
    let wShrink : ℚ := if 0 < tw then (dw : ℚ) / (tw : ℚ) else 1
    let hShrink : ℚ := if 0 < th then (dh : ℚ) / (th : ℚ) else 1
    let factor := min wShrink hShrink
    max ((⌊(font_size : ℚ) * factor⌋ : Int) : ℚ) 1
  else (font_size : ℚ)

/-- The anchor resolver of `add_watermark` (processor.rs lines 155–169). `Nat` subtraction
is truncated, which is exactly `u32::saturating_sub`. -/
def anchorOrigin (pos : WatermarkPosition) (iw ih tw th padding : Nat) : Nat × Nat :=
  match pos with
  | .Nw => (padding, padding)
  | .North => ((iw - tw) / 2, padding)
  | .Ne => (iw - tw - padding, padding)
  | .West => (padding, (ih - th) / 2)
  | .Center => ((iw - tw) / 2, (ih - th) / 2)
  | .East => (iw - tw - padding, (ih - th) / 2)
  | .Sw => (padding, ih - th - padding)
  | .South => ((iw - tw) / 2, ih - th - padding)
  | .Se => (iw - tw - padding, ih - th - padding)

/-- Saturating subtraction as the spec words it: the integer difference clamped to 0. -/
def satSub (m n : Nat) : Nat := ((m : Int) - (n : Int)).toNat

/-- The Anchor Resolver mapping table transcribed from the spec (section 4.3), with every
subtraction the spec's saturating subtraction `satSub`. -/
def specAnchorOrigin (pos : WatermarkPosition) (iw ih tw th p : Nat) : Nat × Nat :=
  match pos with
  | .Nw => (p, p)
  | .North => (satSub iw tw / 2, p)
  | .Ne => (satSub (satSub iw tw) p, p)
  | .West => (p, satSub ih th / 2)
  | .Center => (satSub iw tw / 2, satSub ih th / 2)
  | .East => (satSub (satSub iw tw) p, satSub ih th / 2)
  | .Sw => (p, satSub (satSub ih th) p)
  | .South => (satSub iw tw / 2, satSub (satSub ih th) p)
  | .Se => (satSub (satSub iw tw) p, satSub (satSub ih th) p)

theorem satSub_eq_sub (m n : Nat) : satSub m n = m - n := by
  simp only [satSub]
  omega

/-- C1: for every anchor position, image dimensions, text dimensions, and padding 10, the
resolved top-left draw origin of the code equals the spec's mapping table entry, with every
subtraction saturating at 0. -/
theorem c1_anchor_resolver_matches_spec (pos : WatermarkPosition) (iw ih tw th : Nat) :
    anchorOrigin pos iw ih tw th 10 = specAnchorOrigin pos iw ih tw th 10 := by
  cases pos <;> simp [anchorOrigin, specAnchorOrigin, satSub_eq_sub]

/-- The coverage-weighted watermark colour of the draw closure (processor.rs lines 183–184):
the alpha channel is scaled by the coverage and cast back to `u8`, a truncation clamped to
[0, 255]. -/
def weightedColor (c : Rgba) (v : ℚ) : Rgba :=
  { c with a := min (⌊(c.a : ℚ) * v⌋).toNat 255 }

/-- Modelled from the spec: the alpha-over blend `Pixel::blend` of the external `image`
crate (processor.rs line 186 calls it; its body is not in this repository).  Per the spec's
Alpha Compositor: destination = source times effective alpha plus destination times one
minus effective alpha per channel, with the effective alpha the source alpha as a fraction
of 255 and the destination alpha combined analogously (standard alpha-over); channels are
rounded back to integers. -/
def blend (dst src : Rgba) : Rgba :=
  let ea : ℚ := (src.a : ℚ) / 255
  { r := (round ((src.r : ℚ) * ea + (dst.r : ℚ) * (1 - ea))).toNat
    g := (round ((src.g : ℚ) * ea + (dst.g : ℚ) * (1 - ea))).toNat
    b := (round ((src.b : ℚ) * ea + (dst.b : ℚ) * (1 - ea))).toNat
    a := (round ((src.a : ℚ) + (dst.a : ℚ) * (1 - ea))).toNat }

/-- Drawing one glyph (processor.rs lines 174–192): skip glyphs without a pixel bounding
box; for each raster event with positive coverage whose absolute coordinates fall inside
the image, blend the coverage-weighted colour over the existing pixel. -/
def drawGlyph (imgW imgH : Nat) (color : Rgba) (fxo fyo : Int) (img : Image)
    (g : PositionedGlyph) : Image :=
  match pixelBBoxOf g with
  | none => img
  | some bb =>
    let bbX := bb.minX + fxo
    let bbY := bb.minY + fyo
    (rasterOf g).foldl
      (fun im e =>
        if 0 < e.2.2 then
          let px := bbX + (e.1 : Int)
          let py := bbY + (e.2.1 : Int)
          if 0 ≤ px ∧ 0 ≤ py ∧ px.toNat < imgW ∧ py.toNat < imgH then
            putPixel im px.toNat py.toNat
              (blend (im.pix px.toNat py.toNat) (weightedColor color e.2.2))
          else im
        else im)
      img

/-- The resolved draw plan of `add_watermark` before the pixel loop: the glyphs at the
auto-fitted scale and the final per-axis draw offsets (processor.rs lines 134–172). -/
structure WatermarkPlan where
  glyphs : List PositionedGlyph
  fxo : Int
  fyo : Int

/-- The layout, auto-fit, anchor and offset stages of `add_watermark` (processor.rs lines
134–172): fixed padding 10, drawable area the image minus the padding on every side, a
first layout at the requested size feeding the auto-fit shrink, a second layout at the
fitted scale, the anchor resolver on the second layout's dimensions, and the final x offset
corrected by the layout's leftmost ink column. -/
def watermarkPlan (imgW imgH : Nat) (text : List Char) (fonts : List Font) (font_size : Nat)
    (pos : WatermarkPosition) : WatermarkPlan :=
  let padding : Nat := 10
  let dw := imgW - padding * 2
  let dh := imgH - padding * 2
  let m0 := layout_text text (font_size : ℚ) fonts
  let scale := autoFitScale font_size dw dh m0.width m0.height
  let m := layout_text text scale fonts
  let origin := anchorOrigin pos imgW imgH m.width m.height padding
  ⟨m.glyphs, (origin.1 : Int) - m.minX, (origin.2 : Int)⟩

/-- `add_watermark` (processor.rs lines 124–193): empty font set returns the image
untouched; otherwise draw every planned glyph over the image in order. -/
def add_watermark (img : Image) (text : List Char) (fonts : List Font) (font_size : Nat)
    (pos : WatermarkPosition) (color : Rgba) : Image :=
  if fonts.isEmpty then img
  else
    let plan := watermarkPlan img.width img.height text fonts font_size pos
    plan.glyphs.foldl (drawGlyph img.width img.height color plan.fxo plan.fyo) img

/-- C2 counterexample: the claim as stated fails — at the NW anchor with image width 100
and text width 200 (text exceeding the image), the resolved origin plus the text width is
210, outside [0, 100]; the same happens at Center. -/
theorem c2_counterexample :
    ¬ ((anchorOrigin WatermarkPosition.Nw 100 100 200 200 10).1 + 200 ≤ 100) := by
  decide

/-- C2 (amended): for every anchor position, padding, image and text dimensions such that
the text plus the padding fits each axis (tw + p ≤ iw and th + p ≤ ih), the resolved
top-left origin plus the text width (resp. height) lies within [0, image width]
(resp. [0, image height]); the lower bound 0 is inherent to the unsigned arithmetic. -/
theorem c2_amended_origin_within_bounds (pos : WatermarkPosition) (iw ih tw th p : Nat)
    (hw : tw + p ≤ iw) (hh : th + p ≤ ih) :
    (anchorOrigin pos iw ih tw th p).1 + tw ≤ iw ∧
      (anchorOrigin pos iw ih tw th p).2 + th ≤ ih := by
  cases pos <;> simp only [anchorOrigin] <;> constructor <;> omega

/-- C2 witness: the amended bound at the Center anchor of a 100 by 100 image with a 50 by
50 text box and padding 10. -/
theorem c2_witness :
    (anchorOrigin WatermarkPosition.Center 100 100 50 50 10).1 + 50 ≤ 100 ∧
      (anchorOrigin WatermarkPosition.Center 100 100 50 50 10).2 + 50 ≤ 100 :=
  c2_amended_origin_within_bounds WatermarkPosition.Center 100 100 50 50 10 (by decide)
    (by decide)

/-- C3 counterexample: the claim as stated fails at requested font size 0 — the text (of
measured size 0 by 0) fits the 100 by 100 drawable area, so the code renders at scale 0,
which is not at least 1. -/
theorem c3_counterexample : ¬ ((1 : ℚ) ≤ autoFitScale 0 100 100 0 0) := by
  decide

/-- C3 (amended): for every requested font size of at least 1 and every drawable area and
measured text size, the scale used to render is at least 1 and at most the requested size,
and when shrinking is needed it equals the requested size times the minimum per-axis shrink
factor drawable/measured (a zero measured dimension counting as factor 1), floored and
clamped to a minimum of 1. -/
theorem c3_amended_autofit_bounds (font_size dw dh tw th : Nat) (hfs : 1 ≤ font_size) :
    (1 : ℚ) ≤ autoFitScale font_size dw dh tw th ∧
      autoFitScale font_size dw dh tw th ≤ (font_size : ℚ) ∧
      (tw > dw ∨ th > dh →
        autoFitScale font_size dw dh tw th =
          max ((⌊(font_size : ℚ) *
            min (if 0 < tw then (dw : ℚ) / (tw : ℚ) else 1)
              (if 0 < th then (dh : ℚ) / (th : ℚ) else 1)⌋ : Int) : ℚ) 1) := by
  by_cases h : tw > dw ∨ th > dh
  · have hfactor :
        min (if 0 < tw then (dw : ℚ) / (tw : ℚ) else 1)
          (if 0 < th then (dh : ℚ) / (th : ℚ) else 1) ≤ 1 := by
      rcases h with h | h
      · have htw : 0 < tw := by omega
        have : (dw : ℚ) / (tw : ℚ) ≤ 1 := by
          rw [div_le_one (by exact_mod_cast htw)]
          exact_mod_cast Nat.le_of_lt h
        calc min (if 0 < tw then (dw : ℚ) / (tw : ℚ) else 1)
              (if 0 < th then (dh : ℚ) / (th : ℚ) else 1)
            ≤ (if 0 < tw then (dw : ℚ) / (tw : ℚ) else 1) := min_le_left _ _
          _ ≤ 1 := by rw [if_pos htw]; exact this
      · have hth : 0 < th := by omega
        have : (dh : ℚ) / (th : ℚ) ≤ 1 := by
          rw [div_le_one (by exact_mod_cast hth)]
          exact_mod_cast Nat.le_of_lt h
        calc min (if 0 < tw then (dw : ℚ) / (tw : ℚ) else 1)
              (if 0 < th then (dh : ℚ) / (th : ℚ) else 1)
            ≤ (if 0 < th then (dh : ℚ) / (th : ℚ) else 1) := min_le_right _ _
          _ ≤ 1 := by rw [if_pos hth]; exact this
    have hmul : (font_size : ℚ) *
        min (if 0 < tw then (dw : ℚ) / (tw : ℚ) else 1)
          (if 0 < th then (dh : ℚ) / (th : ℚ) else 1) ≤ (font_size : ℚ) := by
      calc (font_size : ℚ) * _ ≤ (font_size : ℚ) * 1 :=
            mul_le_mul_of_nonneg_left hfactor (by positivity)
        _ = (font_size : ℚ) := mul_one _
    have hfloor : (⌊(font_size : ℚ) *
        min (if 0 < tw then (dw : ℚ) / (tw : ℚ) else 1)
          (if 0 < th then (dh : ℚ) / (th : ℚ) else 1)⌋ : ℚ) ≤ (font_size : ℚ) :=
      le_trans (Int.floor_le _) hmul
    refine ⟨?_, ?_, fun _ => ?_⟩
    · simp only [autoFitScale, if_pos h]
      exact le_max_right _ _
    · simp only [autoFitScale, if_pos h]
      exact max_le hfloor (by exact_mod_cast hfs)
    · simp only [autoFitScale, if_pos h]
  · have h1 : ¬ (tw > dw ∨ th > dh) := h
    refine ⟨?_, ?_, fun hc => absurd hc h1⟩
    · simp only [autoFitScale, if_neg h1]
      exact_mod_cast hfs
    · simp only [autoFitScale, if_neg h1]
      exact le_refl _

/-- C3 witness: requested font size 40 on a 100 by 50 canvas minus padding (drawable 80 by
30) with measured text 300 by 40 at the requested size; the shrink path applies and the
fitted scale obeys the amended bounds. -/
theorem c3_witness :
    (1 : ℚ) ≤ autoFitScale 40 80 30 300 40 ∧
      autoFitScale 40 80 30 300 40 ≤ (40 : ℚ) ∧
      (300 > 80 ∨ 40 > 30 →
        autoFitScale 40 80 30 300 40 =
          max ((⌊(40 : ℚ) *
            min (if 0 < (300 : Nat) then (80 : ℚ) / (300 : ℚ) else 1)
              (if 0 < (40 : Nat) then (30 : ℚ) / (40 : ℚ) else 1)⌋ : Int) : ℚ) 1) :=
  c3_amended_autofit_bounds 40 80 30 300 40 (by decide)

theorem layoutChars_cons (fonts : List Font) (primary : Font) (scale asc : ℚ)
    (ch : Char) (rest : List Char) (caret : ℚ) (lastId : Option Nat) :
    layoutChars fonts primary scale asc (ch :: rest) caret lastId =
      (⟨(resolveGlyph fonts primary ch).1, (resolveGlyph fonts primary ch).2, scale,
        caretAfterKern caret lastId (resolveGlyph fonts primary ch).1 scale
          (resolveGlyph fonts primary ch).2, asc⟩ : PositionedGlyph) ::
      layoutChars fonts primary scale asc rest
        (caretAfterKern caret lastId (resolveGlyph fonts primary ch).1 scale
            (resolveGlyph fonts primary ch).2 +
          (resolveGlyph fonts primary ch).1.advance scale (resolveGlyph fonts primary ch).2)
        (some (resolveGlyph fonts primary ch).2) := rfl

theorem layoutChars_length (fonts : List Font) (primary : Font) (scale asc : ℚ) :
    ∀ (text : List Char) (caret : ℚ) (lastId : Option Nat),
      (layoutChars fonts primary scale asc text caret lastId).length = text.length := by
  intro text
  induction text with
  | nil => intro caret lastId; rfl
  | cons ch rest ih =>
    intro caret lastId
    rw [layoutChars_cons, List.length_cons, List.length_cons, ih]

/-- C4 (amended): during layout, for every character after the first — formalised as any
two consecutive glyphs of the produced sequence — the caret advances from the previous
glyph's origin by the previous glyph's horizontal advance plus a kerning adjustment that is
looked up in the kerning table of the font that renders the CURRENT glyph (processor.rs
line 97 calls `font_used.pair_kerning`, and `font_used` is the current character's font),
not the previous glyph's font as the spec words it. -/
theorem c4_amended_kerning_recurrence (fonts : List Font) (primary : Font) (scale asc : ℚ) :
    ∀ (text : List Char) (caret : ℚ) (lastId : Option Nat)
      (pre post : List PositionedGlyph) (g1 g2 : PositionedGlyph),
      layoutChars fonts primary scale asc text caret lastId = pre ++ g1 :: g2 :: post →
      g2.x = g1.x + g1.font.advance scale g1.id + g2.font.kern scale g1.id g2.id := by
  intro text
  induction text with
  | nil =>
    intro caret lastId pre post g1 g2 h
    cases pre <;> simp [layoutChars] at h
  | cons ch rest ih =>
    intro caret lastId pre post g1 g2 h
    rw [layoutChars_cons] at h
    cases pre with
    | cons p preTail =>
      rw [List.cons_append] at h
      injection h with h1 h2
      exact ih _ _ preTail post g1 g2 h2
    | nil =>
      rw [List.nil_append] at h
      injection h with h1 h2
      cases rest with
      | nil => simp [layoutChars] at h2
      | cons ch2 rest2 =>
        rw [layoutChars_cons] at h2
        injection h2 with h3 h4
        subst h1
        subst h3
        simp [caretAfterKern]

/-- A small concrete font covering only the character a with glyph id 3, advance 10 and
constant pair kerning 3; it rasterises nothing. -/
def fA : Font :=
  { glyphId := fun c => if c = 'a' then 3 else 0
    advance := fun _ _ => 10
    kern := fun _ _ _ => 3
    ascent := fun _ => 0
    pixelBBox := fun _ _ _ _ => none
    raster := fun _ _ _ _ => [] }

/-- A small concrete font covering only the character b with glyph id 7, advance 20 and
constant pair kerning 5; it rasterises nothing. -/
def fB : Font :=
  { glyphId := fun c => if c = 'b' then 7 else 0
    advance := fun _ _ => 20
    kern := fun _ _ _ => 5
    ascent := fun _ => 0
    pixelBBox := fun _ _ _ _ => none
    raster := fun _ _ _ _ => [] }

/-- The first glyph laid out for the text ab over the fallback set [fA, fB]. -/
def pgA : PositionedGlyph := ⟨fA, 3, 24, 0, 0⟩

/-- The second glyph laid out for the text ab over the fallback set [fA, fB]: its origin 15
is advance 10 plus kerning 5 taken from fB, the font of the current glyph. -/
def pgB : PositionedGlyph := ⟨fB, 7, 24, 15, 0⟩

unseal Rat.add Rat.mul Rat.inv Rat.sub in
/-- C4 counterexample: laying out the text ab over the fallback set [fA, fB] places the
second glyph at x = 15 = 0 + advance 10 + kerning 5 looked up in fB, the font of the
current glyph; the claim predicts kerning 3 from fA, the font of the previous glyph, hence
x = 13, so the claim fails at this input. -/
theorem c4_counterexample :
    layoutChars [fA, fB] fA 24 0 ['a', 'b'] 0 none = [pgA, pgB] ∧
      pgB.x ≠ pgA.x + pgA.font.advance 24 pgA.id + pgA.font.kern 24 pgA.id pgB.id :=
  ⟨rfl, by decide⟩

unseal Rat.add Rat.mul Rat.inv Rat.sub in
/-- C4 witness: the amended recurrence at the concrete layout of the text ab over
[fA, fB]. -/
theorem c4_witness :
    pgB.x = pgA.x + pgA.font.advance 24 pgA.id + pgB.font.kern 24 pgA.id pgB.id :=
  c4_amended_kerning_recurrence [fA, fB] fA 24 0 ['a', 'b'] 0 none [] [] pgA pgB rfl

/-- C5: glyph resolution scans the fallback set in order — if the fonts before index i all
report the missing-glyph sentinel for a character and the font at index i does not, that
font and its glyph are used; if every font reports missing, the primary font's replacement
glyph U+FFFD is used; and every glyph the layout engine places is exactly the one this
resolution yields for its character, so the substitution is total and never an error. -/
theorem c5_fallback_selection (fonts : List Font) (primary : Font) (ch : Char) :
    ((∀ f ∈ fonts, f.glyphId ch = 0) →
      resolveGlyph fonts primary ch = (primary, primary.glyphId (Char.ofNat 65533))) ∧
    (∀ (i : Nat) (h : i < fonts.length),
      (∀ f ∈ fonts.take i, f.glyphId ch = 0) →
      (fonts.get ⟨i, h⟩).glyphId ch ≠ 0 →
      resolveGlyph fonts primary ch = (fonts.get ⟨i, h⟩, (fonts.get ⟨i, h⟩).glyphId ch)) ∧
    (∀ (scale asc : ℚ) (text : List Char) (caret : ℚ) (lastId : Option Nat)
        (k : Nat) (hk : k < text.length),
      ((layoutChars fonts primary scale asc text caret lastId).get
          ⟨k, by rw [layoutChars_length]; exact hk⟩).font =
            (resolveGlyph fonts primary (text.get ⟨k, hk⟩)).1 ∧
        ((layoutChars fonts primary scale asc text caret lastId).get
          ⟨k, by rw [layoutChars_length]; exact hk⟩).id =
            (resolveGlyph fonts primary (text.get ⟨k, hk⟩)).2) := by
  refine ⟨?_, ?_, ?_⟩
  · intro hall
    have hnone : fonts.findSome?
        (fun f => if f.glyphId ch ≠ 0 then some (f, f.glyphId ch) else none) = none := by
      rw [List.findSome?_eq_none_iff]
      intro f hf
      simp [hall f hf]
    unfold resolveGlyph
    rw [hnone]
  · induction fonts with
    | nil =>
      intro i h
      exact absurd h (by simp)
    | cons f0 rest ih =>
      intro i h htake hne
      cases i with
      | zero =>
        simp only [List.get] at hne ⊢
        simp [resolveGlyph, List.findSome?_cons, hne]
      | succ n =>
        have h0 : f0.glyphId ch = 0 := htake f0 (by simp)
        have hrec := ih n (by simpa using h)
          (by intro f hf; exact htake f (by simp [List.take]; right; exact hf))
          (by simpa using hne)
        simp only [List.get] at hne ⊢
        rw [show resolveGlyph (f0 :: rest) primary ch = resolveGlyph rest primary ch from by
          simp [resolveGlyph, List.findSome?_cons, h0]]
        exact hrec
  · intro scale asc text
    induction text with
    | nil =>
      intro caret lastId k hk
      exact absurd hk (by simp)
    | cons ch2 rest ih =>
      intro caret lastId k hk
      cases k with
      | zero => exact ⟨rfl, rfl⟩
      | succ n => exact ih _ _ n (by simpa using hk)

/-- C5 witness: resolving the character b over the fallback set [fA, fB] — the primary
font fA reports the missing-glyph sentinel, so the second font fB and its glyph 7 win. -/
theorem c5_witness :
    resolveGlyph [fA, fB] fA 'b' =
      ([fA, fB].get ⟨1, by decide⟩, ([fA, fB].get ⟨1, by decide⟩).glyphId 'b') :=
  (c5_fallback_selection [fA, fB] fA 'b').2.1 1 (by decide) (by decide) (by decide)

theorem putPixel_pix (img : Image) (x y a b : Nat) (c : Rgba) :
    (putPixel img x y c).pix a b = if a = x ∧ b = y then c else img.pix a b := rfl

/-- The in-bounds positive-coverage draw events of one glyph, with absolute pixel
coordinates: a restatement of the guards of the draw loop (processor.rs lines 174–192) as
a filter, used to reason about which pixels `drawGlyph` writes. -/
def glyphEvents (imgW imgH : Nat) (fxo fyo : Int) (g : PositionedGlyph) :
    List (Nat × Nat × ℚ) :=
  match pixelBBoxOf g with
  | none => []
  | some bb =>
    let bbX := bb.minX + fxo
    let bbY := bb.minY + fyo
    (rasterOf g).filterMap
      (fun e =>
        if 0 < e.2.2 then
          let px := bbX + (e.1 : Int)
          let py := bbY + (e.2.1 : Int)
          if 0 ≤ px ∧ 0 ≤ py ∧ px.toNat < imgW ∧ py.toNat < imgH then
            some (px.toNat, py.toNat, e.2.2)
          else none
        else none)

/-- Replaying a list of draw events over the image: each event blends the
coverage-weighted watermark colour over the pixel it names. -/
def applyEvents (color : Rgba) (img : Image) (l : List (Nat × Nat × ℚ)) : Image :=
  l.foldl
    (fun im e => putPixel im e.1 e.2.1 (blend (im.pix e.1 e.2.1) (weightedColor color e.2.2)))
    img

/-- Folding the blend over the coverages of a list of events, in order. -/
def foldBlend (color : Rgba) (c0 : Rgba) (l : List (Nat × Nat × ℚ)) : Rgba :=
  l.foldl (fun c e => blend c (weightedColor color e.2.2)) c0

theorem drawGlyph_eq_applyEvents (imgW imgH : Nat) (color : Rgba) (fxo fyo : Int)
    (img : Image) (g : PositionedGlyph) :
    drawGlyph imgW imgH color fxo fyo img g =
      applyEvents color img (glyphEvents imgW imgH fxo fyo g) := by
  unfold drawGlyph glyphEvents
  cases hbb : pixelBBoxOf g with
  | none => rfl
  | some bb =>
    simp only []
    generalize rasterOf g = l
    induction l generalizing img with
    | nil => rfl
    | cons e rest ih =>
      by_cases hv : (0 : ℚ) < e.2.2
      · by_cases hin : 0 ≤ bb.minX + fxo + (e.1 : Int) ∧ 0 ≤ bb.minY + fyo + (e.2.1 : Int) ∧
            (bb.minX + fxo + (e.1 : Int)).toNat < imgW ∧
            (bb.minY + fyo + (e.2.1 : Int)).toNat < imgH
        · simp only [List.foldl_cons, List.filterMap_cons, if_pos hv, if_pos hin,
            applyEvents, List.foldl_cons] at ih ⊢
          exact ih _
        · simp only [List.foldl_cons, List.filterMap_cons, if_pos hv, if_neg hin] at ih ⊢
          exact ih _
      · simp only [List.foldl_cons, List.filterMap_cons, if_neg hv] at ih ⊢
        exact ih _

theorem applyEvents_append (color : Rgba) (img : Image) (l1 l2 : List (Nat × Nat × ℚ)) :
    applyEvents color img (l1 ++ l2) = applyEvents color (applyEvents color img l1) l2 := by
  simp [applyEvents, List.foldl_append]

theorem foldl_drawGlyph_eq_applyEvents (imgW imgH : Nat) (color : Rgba) (fxo fyo : Int) :
    ∀ (gs : List PositionedGlyph) (img : Image),
      gs.foldl (drawGlyph imgW imgH color fxo fyo) img =
        applyEvents color img (gs.flatMap (glyphEvents imgW imgH fxo fyo)) := by
  intro gs
  induction gs with
  | nil => intro img; rfl
  | cons g rest ih =>
    intro img
    rw [List.foldl_cons, List.flatMap_cons, applyEvents_append, ← drawGlyph_eq_applyEvents]
    exact ih _

theorem applyEvents_pix (color : Rgba) (x y : Nat) :
    ∀ (l : List (Nat × Nat × ℚ)) (img : Image),
      (applyEvents color img l).pix x y =
        foldBlend color (img.pix x y) (l.filter (fun e => e.1 == x && e.2.1 == y)) := by
  intro l
  induction l with
  | nil => intro img; rfl
  | cons e rest ih =>
    intro img
    have hcons : applyEvents color img (e :: rest) =
        applyEvents color
          (putPixel img e.1 e.2.1 (blend (img.pix e.1 e.2.1) (weightedColor color e.2.2)))
          rest := rfl
    rw [hcons, ih]
    by_cases he : e.1 = x ∧ e.2.1 = y
    · obtain ⟨hex, hey⟩ := he
      subst hex
      subst hey
      rw [putPixel_pix, if_pos ⟨rfl, rfl⟩]
      rw [List.filter_cons, if_pos (by simp)]
      rfl
    · rw [putPixel_pix, if_neg (fun hc => he ⟨hc.1.symm, hc.2.symm⟩)]
      rw [List.filter_cons, if_neg (by simpa using he)]

/-- The full ordered list of in-bounds positive-coverage draw events of one watermark
application: the events of every planned glyph, in drawing order. -/
def watermarkEvents (img : Image) (text : List Char) (fonts : List Font) (font_size : Nat)
    (pos : WatermarkPosition) : List (Nat × Nat × ℚ) :=
  if fonts.isEmpty then []
  else
    let plan := watermarkPlan img.width img.height text fonts font_size pos
    plan.glyphs.flatMap (glyphEvents img.width img.height plan.fxo plan.fyo)

theorem add_watermark_pix (img : Image) (text : List Char) (fonts : List Font)
    (font_size : Nat) (pos : WatermarkPosition) (color : Rgba) (x y : Nat) :
    (add_watermark img text fonts font_size pos color).pix x y =
      foldBlend color (img.pix x y)
        ((watermarkEvents img text fonts font_size pos).filter
          (fun e => e.1 == x && e.2.1 == y)) := by
  unfold add_watermark watermarkEvents
  by_cases hf : fonts.isEmpty
  · simp [hf, foldBlend]
  · simp only [if_neg hf]
    rw [foldl_drawGlyph_eq_applyEvents, applyEvents_pix]

theorem foldl_drawGlyph_no_bbox (imgW imgH : Nat) (color : Rgba) (fxo fyo : Int) :
    ∀ (gs : List PositionedGlyph) (img : Image), (∀ g ∈ gs, pixelBBoxOf g = none) →
      gs.foldl (drawGlyph imgW imgH color fxo fyo) img = img := by
  intro gs
  induction gs with
  | nil => intro img _; rfl
  | cons g rest ih =>
    intro img hall
    rw [List.foldl_cons]
    have hdraw : drawGlyph imgW imgH color fxo fyo img g = img := by
      unfold drawGlyph
      rw [hall g (by simp)]
    rw [hdraw]
    exact ih img (fun g2 hg2 => hall g2 (by simp [hg2]))

theorem layout_text_nil_glyphs (scale : ℚ) (fonts : List Font) :
    (layout_text [] scale fonts).glyphs = [] := by
  cases fonts <;> rfl

/-- C6: applying the watermark with an empty font set, an empty string, or a string whose
laid-out glyphs (at the scale actually used) all lack a pixel bounding box writes no pixel
at all: the resulting image is identical to the input image. -/
theorem c6_noop_watermark (img : Image) (text : List Char) (fonts : List Font)
    (font_size : Nat) (pos : WatermarkPosition) (color : Rgba)
    (h : fonts = [] ∨ text = [] ∨
      ∀ g ∈ (watermarkPlan img.width img.height text fonts font_size pos).glyphs,
        pixelBBoxOf g = none) :
    add_watermark img text fonts font_size pos color = img := by
  rcases h with hf | ht | hbb
  · subst hf
    rfl
  · subst ht
    unfold add_watermark
    by_cases hf : fonts.isEmpty
    · rw [if_pos hf]
    · rw [if_neg hf]
      have hg : (watermarkPlan img.width img.height [] fonts font_size pos).glyphs = [] := by
        unfold watermarkPlan
        exact layout_text_nil_glyphs _ _
      show List.foldl (drawGlyph img.width img.height color
          (watermarkPlan img.width img.height [] fonts font_size pos).fxo
          (watermarkPlan img.width img.height [] fonts font_size pos).fyo) img
          (watermarkPlan img.width img.height [] fonts font_size pos).glyphs = img
      rw [hg]
      rfl
  · unfold add_watermark
    by_cases hf : fonts.isEmpty
    · rw [if_pos hf]
    · rw [if_neg hf]
      exact foldl_drawGlyph_no_bbox _ _ _ _ _ _ _ hbb

/-- A 100 by 100 all-black opaque test image. -/
def imgBlack : Image := ⟨100, 100, fun _ _ => ⟨0, 0, 0, 255⟩⟩

/-- A semi-transparent white watermark colour, the tool's default FFFFFF80. -/
def colWhite : Rgba := ⟨255, 255, 255, 128⟩

/-- C6 witness: the empty string leaves the concrete test image untouched. -/
theorem c6_witness :
    add_watermark imgBlack [] [fA] 24 WatermarkPosition.Se colWhite = imgBlack :=
  c6_noop_watermark imgBlack [] [fA] 24 WatermarkPosition.Se colWhite (Or.inr (Or.inl rfl))

/-- C7 (amended): applying a watermark with a non-empty string and nonzero alpha to an
in-bounds pixel changes at least one pixel of the image, provided the ordered blends of
that pixel's positive-coverage draw events compose to a value different from its original
one; without that proviso the claim fails — a whitespace-only string draws nothing, and a
blend can reproduce the background exactly. -/
theorem c7_amended_pixel_change (img : Image) (text : List Char) (fonts : List Font)
    (font_size : Nat) (pos : WatermarkPosition) (color : Rgba) (x y : Nat)
    (_htext : text ≠ []) (_halpha : color.a ≠ 0)
    (hx : x < img.width) (hy : y < img.height)
    (hne : foldBlend color (img.pix x y)
        ((watermarkEvents img text fonts font_size pos).filter
          (fun e => e.1 == x && e.2.1 == y)) ≠ img.pix x y) :
    ∃ px py, px < img.width ∧ py < img.height ∧
      (add_watermark img text fonts font_size pos color).pix px py ≠ img.pix px py :=
  ⟨x, y, hx, hy, by rw [add_watermark_pix]; exact hne⟩

/-- A font whose only glyph is a space-like glyph (id 5) with an advance but no pixel
bounding box and no raster coverage, as rusttype reports for whitespace. -/
def fSpace : Font :=
  { glyphId := fun c => if c = ' ' then 5 else 0
    advance := fun _ _ => 12
    kern := fun _ _ _ => 0
    ascent := fun _ => 20
    pixelBBox := fun _ _ _ _ => none
    raster := fun _ _ _ _ => [] }

/-- C7 counterexample: a single space is a non-empty string, the colour's alpha 128 is
nonzero and the 100 by 100 image is non-trivial, yet its space glyph has no pixel bounding
box, so the watermark changes no pixel at all and the claim as stated is false. -/
theorem c7_counterexample :
    ([' '] : List Char) ≠ [] ∧ colWhite.a ≠ 0 ∧
      0 < imgBlack.width ∧ 0 < imgBlack.height ∧
      ¬ ∃ px py, px < imgBlack.width ∧ py < imgBlack.height ∧
        (add_watermark imgBlack [' '] [fSpace] 24 WatermarkPosition.Se colWhite).pix px py ≠
          imgBlack.pix px py := by
  have heq : add_watermark imgBlack [' '] [fSpace] 24 WatermarkPosition.Se colWhite =
      imgBlack := rfl
  refine ⟨by decide, by decide, by decide, by decide, ?_⟩
  rintro ⟨px, py, hpx, hpy, hne⟩
  exact hne (by rw [heq])

/-- A font with a single inked glyph for the character A: a 1 by 1 pixel bounding box at
the glyph origin with one full-coverage raster event. -/
def fInk : Font :=
  { glyphId := fun c => if c = 'A' then 7 else 0
    advance := fun _ _ => 10
    kern := fun _ _ _ => 0
    ascent := fun _ => 12
    pixelBBox := fun _ _ _ _ => some ⟨0, 0, 1, 1⟩
    raster := fun _ _ _ _ => [(0, 0, 1)] }

unseal Rat.add Rat.mul Rat.inv Rat.sub in
/-- C7 witness: watermarking the black test image with the text A in semi-transparent white
at the SE anchor writes the blended grey 128,128,128,255 at pixel 89,89, which differs from
the original black pixel. -/
theorem c7_witness :
    ∃ px py, px < imgBlack.width ∧ py < imgBlack.height ∧
      (add_watermark imgBlack ['A'] [fInk] 24 WatermarkPosition.Se colWhite).pix px py ≠
        imgBlack.pix px py :=
  c7_amended_pixel_change imgBlack ['A'] [fInk] 24 WatermarkPosition.Se colWhite 89 89
    (by decide) (by decide) (by decide) (by decide) (by decide)

/-- The PNG compression effort tiers of the `image` crate (`png::CompressionType`) that the
encoding dispatcher selects between. -/
inductive CompressionType where
  | best | fast | defaultLevel
deriving DecidableEq, Repr

/-- The PNG filtering strategies of the `image` crate (`png::FilterType`); the dispatcher
only ever uses `sub`. -/
inductive FilterType where
  | noFilter | sub | up | avg | paeth
deriving DecidableEq, Repr

/-- The PNG branch of `save_image_with_format` (processor.rs lines 214–221): quality 100
selects the best compression, quality 1 through 50 the fastest, anything else the default,
and the filter strategy is always `Sub`. -/
def pngParams (quality : Nat) : CompressionType × FilterType :=
  (if quality = 100 then CompressionType.best
    else if 1 ≤ quality ∧ quality ≤ 50 then CompressionType.fast
    else CompressionType.defaultLevel,
   FilterType.sub)

/-- C8: the PNG quality mapping — 100 yields maximum compression effort, 1 through 50 the
fastest effort, 51 through 99 the balanced default effort, and the filtering strategy is
the same fixed choice `Sub` for every quality value. -/
theorem c8_png_quality_tiers :
    (pngParams 100).1 = CompressionType.best ∧
      (∀ q : Nat, 1 ≤ q → q ≤ 50 → (pngParams q).1 = CompressionType.fast) ∧
      (∀ q : Nat, 51 ≤ q → q ≤ 99 → (pngParams q).1 = CompressionType.defaultLevel) ∧
      (∀ q : Nat, (pngParams q).2 = FilterType.sub) := by
  refine ⟨rfl, ?_, ?_, fun q => rfl⟩
  · intro q h1 h50
    have hne : q ≠ 100 := by omega
    simp [pngParams, hne, h1, h50]
  · intro q h51 h99
    have hne : q ≠ 100 := by omega
    have hnot : ¬ (1 ≤ q ∧ q ≤ 50) := by omega
    simp [pngParams, hne, hnot]

/-- C8 witness: the tier selection at the concrete qualities 30 and 70. -/
theorem c8_witness :
    (pngParams 30).1 = CompressionType.fast ∧
      (pngParams 70).1 = CompressionType.defaultLevel := by
  constructor
  · exact c8_png_quality_tiers.2.1 30 (by decide) (by decide)
  · exact c8_png_quality_tiers.2.2.1 70 (by decide) (by decide)

/-- A destination path reduced to the parts format resolution touches: a stem and an
extension (`with_extension` replaces the extension and keeps the stem). -/
structure OutPath where
  stem : String
  ext : String
deriving DecidableEq, Repr

/-- `Path::with_extension`: replace the extension, keep the stem. -/
def withExtension (p : OutPath) (e : String) : OutPath := ⟨p.stem, e⟩

/-- The extension knowledge of the external `image` crate, abstract over the format type:
`fromExt` models `ImageFormat::from_path` (inference from an extension, `none` when no
format matches) and `primaryExt` models `ImageFormat::extensions_str()[0]` (the canonical
extension of a format). -/
structure FmtTable (Fmt : Type) where
  fromExt : String → Option Fmt
  primaryExt : Fmt → String

/-- The output format resolution of `process_image` (processor.rs lines 51–60): with an
explicit format, rewrite the destination's extension to that format's canonical extension;
without one, infer the format from the existing extension, `none` modelling the fatal
per-image error when no known format matches. -/
def resolveOutput {Fmt : Type} (tbl : FmtTable Fmt) (explicitFmt : Option Fmt)
    (base : OutPath) : Option (OutPath × Fmt) :=
  match explicitFmt with
  | some f => some (withExtension base (tbl.primaryExt f), f)
  | none =>
    match tbl.fromExt base.ext with
    | some f => some (base, f)
    | none => none

/-- C9: format resolution takes exactly one of two paths — an explicit format rewrites the
destination extension to its canonical one and performs no inference (the result does not
depend on the inference table at all), while without an explicit format the format is
inferred from the existing extension, succeeding with the path unchanged exactly when the
extension is known and failing with the explicit per-image error exactly when it is not. -/
theorem c9_format_resolution {Fmt : Type} (tbl tbl2 : FmtTable Fmt) (base : OutPath)
    (f : Fmt) :
    resolveOutput tbl (some f) base = some (withExtension base (tbl.primaryExt f), f) ∧
      (tbl.primaryExt = tbl2.primaryExt →
        resolveOutput tbl (some f) base = resolveOutput tbl2 (some f) base) ∧
      (resolveOutput tbl none base = none ↔ tbl.fromExt base.ext = none) ∧
      (∀ g : Fmt, tbl.fromExt base.ext = some g →
        resolveOutput tbl none base = some (base, g)) := by
  refine ⟨rfl, ?_, ?_, ?_⟩
  · intro hp
    simp [resolveOutput, hp]
  · unfold resolveOutput
    cases h : tbl.fromExt base.ext <;> simp [h]
  · intro g hg
    simp [resolveOutput, hg]

/-- A two-format demonstration codec set for the C9 witness. -/
inductive DemoFmt where
  | png | jpeg
deriving DecidableEq, Repr

/-- A concrete extension table for the demonstration formats. -/
def demoTable : FmtTable DemoFmt :=
  { fromExt := fun e =>
      if e = "png" then some DemoFmt.png
      else if e = "jpg" ∨ e = "jpeg" then some DemoFmt.jpeg
      else none
    primaryExt := fun f =>
      match f with
      | DemoFmt.png => "png"
      | DemoFmt.jpeg => "jpg" }

/-- C9 witness: on a concrete path with extension bmp, an explicit png request rewrites the
extension and ignores inference, and inference on the bmp extension fails while it succeeds
on a png extension. -/
theorem c9_witness :
    resolveOutput demoTable (some DemoFmt.png) ⟨"photo", "bmp"⟩ =
      some (withExtension ⟨"photo", "bmp"⟩ (demoTable.primaryExt DemoFmt.png), DemoFmt.png) ∧
      (resolveOutput demoTable none ⟨"photo", "bmp"⟩ = none ↔
        demoTable.fromExt "bmp" = none) ∧
      resolveOutput demoTable none ⟨"photo", "png"⟩ = some (⟨"photo", "png"⟩, DemoFmt.png) :=
  ⟨(c9_format_resolution demoTable demoTable ⟨"photo", "bmp"⟩ DemoFmt.png).1,
    (c9_format_resolution demoTable demoTable ⟨"photo", "bmp"⟩ DemoFmt.png).2.2.1,
    (c9_format_resolution demoTable demoTable ⟨"photo", "png"⟩ DemoFmt.png).2.2.2
      DemoFmt.png (by decide)⟩

/-- The smart resize dimension computation of `process_image` (processor.rs lines 19–38):
with only a width requested and a nonzero original width, the height is the original
height-to-width quotient times the requested width, rounded to the nearest integer (f32
`round`, half away from zero, which on these nonnegative values is `round`) and clamped to
a minimum of 1; symmetrically with only a height requested; with both requested they are
taken as is; with neither the original dimensions are kept. -/
def computeResizeDims (cliW cliH : Option Nat) (ow oh : Nat) : Nat × Nat :=
  match cliW, cliH with
  | some w, none =>
    if 0 < ow then (w, (round ((w : ℚ) * ((oh : ℚ) / (ow : ℚ)))).toNat.max 1)
    else (w, oh)
  | none, some h =>
    if 0 < oh then ((round ((h : ℚ) * ((ow : ℚ) / (oh : ℚ)))).toNat.max 1, h)
    else (ow, h)
  | some w, some h => (w, h)
  | none, none => (ow, oh)

/-- C10: when exactly one target dimension is requested and the corresponding original
dimension is nonzero, the other dimension is the original aspect quotient times the
requested value, rounded to nearest and clamped to a minimum of 1 — so it is never zero —
and when the relevant original dimension is zero the unspecified dimension keeps its
original value. -/
theorem c10_resize_inference (w h ow oh : Nat) :
    (0 < ow →
      computeResizeDims (some w) none ow oh =
        (w, (round ((w : ℚ) * ((oh : ℚ) / (ow : ℚ)))).toNat.max 1) ∧
      1 ≤ (computeResizeDims (some w) none ow oh).2) ∧
    (ow = 0 → computeResizeDims (some w) none ow oh = (w, oh)) ∧
    (0 < oh →
      computeResizeDims none (some h) ow oh =
        ((round ((h : ℚ) * ((ow : ℚ) / (oh : ℚ)))).toNat.max 1, h) ∧
      1 ≤ (computeResizeDims none (some h) ow oh).1) ∧
    (oh = 0 → computeResizeDims none (some h) ow oh = (ow, h)) := by
  refine ⟨?_, ?_, ?_, ?_⟩
  · intro how
    refine ⟨by simp [computeResizeDims, how], ?_⟩
    simp [computeResizeDims, how]
  · intro how
    simp [computeResizeDims, how]
  · intro hoh
    refine ⟨by simp [computeResizeDims, hoh], ?_⟩
    simp [computeResizeDims, hoh]
  · intro hoh
    simp [computeResizeDims, hoh]

unseal Rat.add Rat.mul Rat.inv Rat.sub in
/-- C10 witness: the spec scenario — a 200 by 400 image resized with only width 100
requested becomes 100 by 200, aspect preserved, and the computed height is at least 1. -/
theorem c10_witness :
    computeResizeDims (some 100) none 200 400 =
      (100, (round ((100 : ℚ) * ((400 : ℚ) / (200 : ℚ)))).toNat.max 1) ∧
      1 ≤ (computeResizeDims (some 100) none 200 400).2 ∧
      computeResizeDims (some 100) none 200 400 = (100, 200) :=
  ⟨((c10_resize_inference 100 0 200 400).1 (by decide)).1,
    ((c10_resize_inference 100 0 200 400).1 (by decide)).2,
    by decide⟩
